import Mathlib

/-!
Verification of the LLaMa tokenizer adapter
(`src/transformers/models/llama/tokenization_llama.py`).

The adapter wraps an external SentencePiece processor.  Python `dict`s are
embedded as insertion-ordered association lists with overwrite-on-duplicate-key
semantics (`dictInsert`), matching CPython: inserting an existing key replaces
its value in place, a new key is appended at the end.  The SentencePiece
processor itself is not part of the repository; its lookup behaviour is
modelled from the specification (see the doc comments on
`SentencePieceProcessor.piece_to_id` and `SentencePieceProcessor.IdToPiece`),
while its segmentation routine `encode` is kept abstract as a function field.
-/

namespace Spec2Proof

/-- Insert a key/value pair into an association list with Python-`dict`
semantics: an existing key has its value replaced in place, a new key is
appended at the end. -/
def dictInsert {α β : Type} [DecidableEq α] (d : List (α × β)) (k : α) (v : β) :
    List (α × β) :=
  match d with
  | [] => [(k, v)]
  | p :: rest => if p.1 = k then (k, v) :: rest else p :: dictInsert rest k v

/-- Python `d[k]` / `k in d`: the value stored at key `k`, if any. -/
def dictGet? {α β : Type} [DecidableEq α] (d : List (α × β)) (k : α) : Option β :=
  match d with
  | [] => none
  | p :: rest => if p.1 = k then some p.2 else dictGet? rest k

/-- The keys of an embedded Python dict, in insertion order. -/
def dictKeys {α β : Type} (d : List (α × β)) : List α := d.map Prod.fst

/-- The Python dict comprehension reversing `d` — `v: k for k, v in d.items()`
— folds the items into a fresh dict keyed by the values, later items
overwriting earlier ones. -/
def dictRev {α β : Type} [DecidableEq β] (d : List (α × β)) : List (β × α) :=
  d.foldl (fun acc p => dictInsert acc p.2 p.1) []

/-- First index of string `s` in `l`, if present. -/
def lookupIdx (l : List String) (s : String) : Option Nat :=
  match l with
  | [] => none
  | x :: rest => if x = s then some 0 else (lookupIdx rest s).map (· + 1)

/-- Modelled from the spec: the external SentencePiece processor
(`spm.SentencePieceProcessor`, not part of this repository).  `pieces` is the
trained vocabulary in id order (ids dense in `[0, size)`, per the spec's
Vocabulary Store invariants); `bos_id`, `eos_id`, `unk_id` are the reserved
special-token ids reported by the loaded model; `encode` is the segmentation
routine, kept abstract. -/
structure SentencePieceProcessor where
  pieces : List String
  bos_id : Int
  eos_id : Int
  unk_id : Int
  encode : String → List String

/-- Modelled from the spec: SentencePiece `piece_to_id` — the Vocabulary Store
lookup `lookup_id`, which "returns not-found (not an exception) for unknown
queries; callers translate to the unknown-token id". -/
def SentencePieceProcessor.piece_to_id (sp : SentencePieceProcessor)
    (piece : String) : Int :=
  match lookupIdx sp.pieces piece with
  | some i => (i : Int)
  | none => sp.unk_id

/-- Modelled from the spec: SentencePiece `IdToPiece` — the Vocabulary Store
lookup `lookup_piece` on the dense id range. -/
def SentencePieceProcessor.IdToPiece (sp : SentencePieceProcessor)
    (index : Int) : String :=
  if h : 0 ≤ index ∧ index.toNat < sp.pieces.length then
    sp.pieces.get ⟨index.toNat, h.2⟩
  else ""

/-- SentencePiece `get_piece_size`. -/
def SentencePieceProcessor.get_piece_size (sp : SentencePieceProcessor) : Nat :=
  sp.pieces.length

/-- The state of a constructed `LLaMaTokenizer`: the loaded processor, the
three configured special-token strings (stored by the base class at
`super().__init__`), the two registry dicts, and `vocab_file`. -/
structure LLaMaTokenizer where
  sp_model : SentencePieceProcessor
  bos_token : String
  eos_token : String
  unk_token : String
  special_token_to_id : List (String × Int)
  special_id_to_token : List (Int × String)
  vocab_file : String

/-- The dict literal built in `__init__`, mapping `bos_token` to `bos_id`,
`eos_token` to `eos_id`, and `unk_token` to `unk_id`, in that insertion
order. -/
def spdict (sp : SentencePieceProcessor) (bos_token eos_token unk_token : String) :
    List (String × Int) :=
  dictInsert (dictInsert (dictInsert [] bos_token sp.bos_id) eos_token sp.eos_id)
    unk_token sp.unk_id

/-- `LLaMaTokenizer.__init__`: builds the special-token dict and its reverse,
and asserts (1) the reverse dict has as many entries as the forward dict,
(2) every configured special string resolves to `unk_id` through the raw
vocabulary, and (3) every special id is non-negative.  A failed `assert`
aborts construction, embedded as `none`.  `sp` is the processor loaded from
`vocab_file`. -/
def LLaMaTokenizer.init (vocab_file : String) (sp : SentencePieceProcessor)
    (bos_token eos_token unk_token : String) : Option LLaMaTokenizer :=
  if (dictRev (spdict sp bos_token eos_token unk_token)).length =
        (spdict sp bos_token eos_token unk_token).length ∧
      ∀ p ∈ spdict sp bos_token eos_token unk_token,
        sp.piece_to_id p.1 = sp.unk_id ∧ 0 ≤ p.2 then
    some ⟨sp, bos_token, eos_token, unk_token,
      spdict sp bos_token eos_token unk_token,
      dictRev (spdict sp bos_token eos_token unk_token), vocab_file⟩
  else none

/-- `vocab_size` property: `self.sp_model.get_piece_size()`. -/
def LLaMaTokenizer.vocab_size (tok : LLaMaTokenizer) : Nat :=
  tok.sp_model.get_piece_size

/-- `_convert_id_to_token`: registry (reverse dict) first, then
`sp_model.IdToPiece`. -/
def LLaMaTokenizer.convert_id_to_token (tok : LLaMaTokenizer) (index : Int) :
    String :=
  match dictGet? tok.special_id_to_token index with
  | some s => s
  | none => tok.sp_model.IdToPiece index

/-- `_convert_token_to_id`: registry (forward dict) first, then
`sp_model.piece_to_id`. -/
def LLaMaTokenizer.convert_token_to_id (tok : LLaMaTokenizer) (token : String) :
    Int :=
  match dictGet? tok.special_token_to_id token with
  | some i => i
  | none => tok.sp_model.piece_to_id token

/-- `_tokenize`: `[self.bos_token] + self.sp_model.encode(text, out_type=str)`. -/
def LLaMaTokenizer.tokenize (tok : LLaMaTokenizer) (text : String) :
    List String :=
  tok.bos_token :: tok.sp_model.encode text

/-- `get_vocab`: the dict comprehension mapping `convert_ids_to_tokens(i)` to
`i` for `i` in `range(vocab_size)`; the base-class `convert_ids_to_tokens`
delegates to `_convert_id_to_token`. -/
def LLaMaTokenizer.get_vocab (tok : LLaMaTokenizer) : List (String × Int) :=
  (List.range tok.vocab_size).foldl
    (fun acc i =>
      dictInsert acc (tok.convert_id_to_token (Int.ofNat i)) (Int.ofNat i)) []

/-!
State-passing forms of the read-only operations.  Each Python method body
contains only attribute reads (no assignment to `self`), so its embedding
returns the result together with the unchanged receiver state.
-/

/-- `_tokenize` as a state transformer. -/
def LLaMaTokenizer.tokenize_st (tok : LLaMaTokenizer) (text : String) :
    List String × LLaMaTokenizer :=
  (tok.tokenize text, tok)

/-- `_convert_token_to_id` as a state transformer. -/
def LLaMaTokenizer.convert_token_to_id_st (tok : LLaMaTokenizer)
    (token : String) : Int × LLaMaTokenizer :=
  (tok.convert_token_to_id token, tok)

/-- `_convert_id_to_token` as a state transformer. -/
def LLaMaTokenizer.convert_id_to_token_st (tok : LLaMaTokenizer) (index : Int) :
    String × LLaMaTokenizer :=
  (tok.convert_id_to_token index, tok)

/-- `get_vocab` as a state transformer. -/
def LLaMaTokenizer.get_vocab_st (tok : LLaMaTokenizer) :
    List (String × Int) × LLaMaTokenizer :=
  (tok.get_vocab, tok)

/-- `vocab_size` as a state transformer. -/
def LLaMaTokenizer.vocab_size_st (tok : LLaMaTokenizer) :
    Nat × LLaMaTokenizer :=
  (tok.vocab_size, tok)

/-!
Concrete instances used by witnesses and counterexamples.
-/

/-- A small well-formed SentencePiece model: the `<unk>` piece at the reserved
unk slot, `<s>`/`</s>` pieces at the reserved bos/eos slots, two ordinary
pieces; `encode` splits into single characters. -/
def spC : SentencePieceProcessor where
  pieces := ["<unk>", "<s>", "</s>", "a", "b"]
  bos_id := 1
  eos_id := 2
  unk_id := 0
  encode := fun t => t.toList.map (fun c => String.mk [c])

/-- The tokenizer produced by a successful construction over `spC` with the
default special strings. -/
def tokC : LLaMaTokenizer where
  sp_model := spC
  bos_token := "<bos>"
  eos_token := "<eos>"
  unk_token := "<unk>"
  special_token_to_id := [("<bos>", 1), ("<eos>", 2), ("<unk>", 0)]
  special_id_to_token := [(1, "<bos>"), (2, "<eos>"), (0, "<unk>")]
  vocab_file := "tokenizer.model"

/-- A model whose reported `bos_id` coincides with `unk_id`. -/
def spBad : SentencePieceProcessor where
  pieces := ["<unk>", "a"]
  bos_id := 0
  eos_id := 1
  unk_id := 0
  encode := fun _ => []

/-!
Lemmas about the embedded Python dicts.
-/

theorem dictInsert_nil {α β : Type} [DecidableEq α] (k : α) (v : β) :
    dictInsert ([] : List (α × β)) k v = [(k, v)] := rfl

theorem dictInsert_cons_pos {α β : Type} [DecidableEq α] (p : α × β)
    (rest : List (α × β)) (k : α) (v : β) (h : p.1 = k) :
    dictInsert (p :: rest) k v = (k, v) :: rest := by
  simp [dictInsert, h]

theorem dictInsert_cons_neg {α β : Type} [DecidableEq α] (p : α × β)
    (rest : List (α × β)) (k : α) (v : β) (h : ¬p.1 = k) :
    dictInsert (p :: rest) k v = p :: dictInsert rest k v := by
  simp [dictInsert, h]

theorem dictGet?_nil {α β : Type} [DecidableEq α] (k : α) :
    dictGet? ([] : List (α × β)) k = none := rfl

theorem dictGet?_cons_pos {α β : Type} [DecidableEq α] (p : α × β)
    (rest : List (α × β)) (k : α) (h : p.1 = k) :
    dictGet? (p :: rest) k = some p.2 := by
  simp [dictGet?, h]

theorem dictGet?_cons_neg {α β : Type} [DecidableEq α] (p : α × β)
    (rest : List (α × β)) (k : α) (h : ¬p.1 = k) :
    dictGet? (p :: rest) k = dictGet? rest k := by
  simp [dictGet?, h]

theorem dictKeys_nil {α β : Type} : dictKeys ([] : List (α × β)) = [] := rfl

theorem dictKeys_cons {α β : Type} (p : α × β) (rest : List (α × β)) :
    dictKeys (p :: rest) = p.1 :: dictKeys rest := rfl

theorem dictGet?_insert_self {α β : Type} [DecidableEq α] (d : List (α × β))
    (k : α) (v : β) : dictGet? (dictInsert d k v) k = some v := by
  induction d with
  | nil => rw [dictInsert_nil, dictGet?_cons_pos _ _ _ rfl]
  | cons p rest ih =>
    by_cases h : p.1 = k
    · rw [dictInsert_cons_pos _ _ _ _ h, dictGet?_cons_pos _ _ _ rfl]
    · rw [dictInsert_cons_neg _ _ _ _ h, dictGet?_cons_neg _ _ _ h, ih]

theorem dictGet?_insert_ne {α β : Type} [DecidableEq α] (d : List (α × β))
    {k k' : α} (v : β) (h : k' ≠ k) :
    dictGet? (dictInsert d k v) k' = dictGet? d k' := by
  have h' : ¬k = k' := fun hh => h hh.symm
  induction d with
  | nil => rw [dictInsert_nil, dictGet?_cons_neg _ _ _ h']
  | cons p rest ih =>
    by_cases hp : p.1 = k
    · have hp' : ¬p.1 = k' := by
        rw [hp]
        exact h'
      rw [dictInsert_cons_pos _ _ _ _ hp, dictGet?_cons_neg _ _ _ h',
        dictGet?_cons_neg _ _ _ hp']
    · rw [dictInsert_cons_neg _ _ _ _ hp]
      by_cases hq : p.1 = k'
      · rw [dictGet?_cons_pos _ _ _ hq, dictGet?_cons_pos _ _ _ hq]
      · rw [dictGet?_cons_neg _ _ _ hq, dictGet?_cons_neg _ _ _ hq, ih]

theorem dictKeys_insert_mem {α β : Type} [DecidableEq α] {d : List (α × β)}
    {k a : α} {v : β} :
    a ∈ dictKeys (dictInsert d k v) ↔ a = k ∨ a ∈ dictKeys d := by
  induction d with
  | nil =>
    rw [dictInsert_nil, dictKeys_cons, dictKeys_nil]
    simp
  | cons p rest ih =>
    by_cases h : p.1 = k
    · rw [dictInsert_cons_pos _ _ _ _ h, dictKeys_cons, dictKeys_cons]
      simp only [List.mem_cons]
      rw [← h]
      tauto
    · rw [dictInsert_cons_neg _ _ _ _ h, dictKeys_cons, dictKeys_cons]
      simp only [List.mem_cons]
      rw [ih]
      tauto

theorem dictKeys_nodup_insert {α β : Type} [DecidableEq α] {d : List (α × β)}
    (k : α) (v : β) (h : (dictKeys d).Nodup) :
    (dictKeys (dictInsert d k v)).Nodup := by
  induction d with
  | nil =>
    rw [dictInsert_nil, dictKeys_cons, dictKeys_nil]
    simp
  | cons p rest ih =>
    rw [dictKeys_cons, List.nodup_cons] at h
    by_cases hp : p.1 = k
    · rw [dictInsert_cons_pos _ _ _ _ hp, dictKeys_cons, List.nodup_cons]
      exact ⟨hp ▸ h.1, h.2⟩
    · rw [dictInsert_cons_neg _ _ _ _ hp, dictKeys_cons, List.nodup_cons]
      refine ⟨fun hmem => ?_, ih h.2⟩
      rcases dictKeys_insert_mem.1 hmem with h' | h'
      · exact hp h'
      · exact h.1 h'

theorem mem_of_mem_dictInsert {α β : Type} [DecidableEq α] {d : List (α × β)}
    {k : α} {v : β} {q : α × β} (h : q ∈ dictInsert d k v) :
    q ∈ d ∨ q = (k, v) := by
  induction d with
  | nil =>
    rw [dictInsert_nil] at h
    exact Or.inr (List.mem_singleton.1 h)
  | cons p rest ih =>
    by_cases hp : p.1 = k
    · rw [dictInsert_cons_pos _ _ _ _ hp] at h
      rcases List.mem_cons.1 h with h | h
      · exact Or.inr h
      · exact Or.inl (List.mem_cons.2 (Or.inr h))
    · rw [dictInsert_cons_neg _ _ _ _ hp] at h
      rcases List.mem_cons.1 h with h | h
      · exact Or.inl (List.mem_cons.2 (Or.inl h))
      · rcases ih h with h' | h'
        · exact Or.inl (List.mem_cons.2 (Or.inr h'))
        · exact Or.inr h'

theorem dictGet?_eq_some_of_mem {α β : Type} [DecidableEq α] {d : List (α × β)}
    (hnd : (dictKeys d).Nodup) {k : α} {v : β} (h : (k, v) ∈ d) :
    dictGet? d k = some v := by
  induction d with
  | nil => simp at h
  | cons p rest ih =>
    rw [dictKeys_cons, List.nodup_cons] at hnd
    rcases List.mem_cons.1 h with h' | h'
    · rw [← h', dictGet?_cons_pos _ _ _ rfl]
    · by_cases hp : p.1 = k
      · exfalso
        apply hnd.1
        rw [hp]
        have : k = ((k, v) : α × β).1 := rfl
        rw [this]
        exact List.mem_map_of_mem Prod.fst h'
      · rw [dictGet?_cons_neg _ _ _ hp]
        exact ih hnd.2 h'

theorem mem_of_dictGet?_eq_some {α β : Type} [DecidableEq α] {d : List (α × β)}
    {k : α} {v : β} (h : dictGet? d k = some v) : (k, v) ∈ d := by
  induction d with
  | nil => simp [dictGet?_nil] at h
  | cons p rest ih =>
    by_cases hp : p.1 = k
    · rw [dictGet?_cons_pos _ _ _ hp] at h
      have hv : p.2 = v := Option.some.inj h
      have : p = (k, v) := by
        cases p
        simp only at hp hv
        rw [hp, hv]
      exact List.mem_cons.2 (Or.inl this.symm)
    · rw [dictGet?_cons_neg _ _ _ hp] at h
      exact List.mem_cons.2 (Or.inr (ih h))

theorem dictGet?_isSome_iff_mem_keys {α β : Type} [DecidableEq α]
    {d : List (α × β)} {k : α} :
    (dictGet? d k).isSome ↔ k ∈ dictKeys d := by
  induction d with
  | nil => simp [dictGet?_nil, dictKeys_nil]
  | cons p rest ih =>
    rw [dictKeys_cons]
    by_cases hp : p.1 = k
    · rw [dictGet?_cons_pos _ _ _ hp]
      simp [hp]
    · rw [dictGet?_cons_neg _ _ _ hp]
      simp only [List.mem_cons, ih]
      constructor
      · exact Or.inr
      · rintro (h | h)
        · exact absurd h.symm hp
        · exact h

theorem dictRev_fold_mem {α β : Type} [DecidableEq β] :
    ∀ (d : List (α × β)) (acc : List (β × α)) (q : β × α),
      q ∈ d.foldl (fun acc p => dictInsert acc p.2 p.1) acc →
      q ∈ acc ∨ (q.2, q.1) ∈ d := by
  intro d
  induction d with
  | nil =>
    intro acc q h
    exact Or.inl h
  | cons p rest ih =>
    intro acc q h
    simp only [List.foldl_cons] at h
    rcases ih (dictInsert acc p.2 p.1) q h with h' | h'
    · rcases mem_of_mem_dictInsert h' with h'' | h''
      · exact Or.inl h''
      · refine Or.inr (List.mem_cons.2 (Or.inl ?_))
        rw [h'']
    · exact Or.inr (List.mem_cons.2 (Or.inr h'))

theorem dictRev_mem {α β : Type} [DecidableEq β] {d : List (α × β)} {q : β × α}
    (h : q ∈ dictRev d) : (q.2, q.1) ∈ d := by
  rcases dictRev_fold_mem d [] q h with h' | h'
  · simp at h'
  · exact h'

theorem dictRev_fold_keys {α β : Type} [DecidableEq β] :
    ∀ (d : List (α × β)) (acc : List (β × α)) (b : β),
      b ∈ dictKeys (d.foldl (fun acc p => dictInsert acc p.2 p.1) acc) ↔
      b ∈ dictKeys acc ∨ b ∈ d.map Prod.snd := by
  intro d
  induction d with
  | nil =>
    intro acc b
    simp
  | cons p rest ih =>
    intro acc b
    simp only [List.foldl_cons, List.map_cons, List.mem_cons]
    rw [ih, dictKeys_insert_mem]
    tauto

theorem dictRev_fold_keys_nodup {α β : Type} [DecidableEq β] :
    ∀ (d : List (α × β)) (acc : List (β × α)),
      (dictKeys acc).Nodup →
      (dictKeys (d.foldl (fun acc p => dictInsert acc p.2 p.1) acc)).Nodup := by
  intro d
  induction d with
  | nil =>
    intro acc h
    exact h
  | cons p rest ih =>
    intro acc h
    simp only [List.foldl_cons]
    exact ih _ (dictKeys_nodup_insert _ _ h)

theorem dictRev_keys_nodup {α β : Type} [DecidableEq β] (d : List (α × β)) :
    (dictKeys (dictRev d)).Nodup :=
  dictRev_fold_keys_nodup d [] (by simp [dictKeys])

theorem dictRev_values_nodup {α β : Type} [DecidableEq β] {d : List (α × β)}
    (h : (dictRev d).length = d.length) : (d.map Prod.snd).Nodup := by
  have h1 : (dictKeys (dictRev d)).Nodup := dictRev_keys_nodup d
  have h2 : ∀ b, b ∈ dictKeys (dictRev d) ↔ b ∈ (d.map Prod.snd).dedup := by
    intro b
    rw [List.mem_dedup]
    have hk := dictRev_fold_keys d [] b
    simp only [dictKeys_nil] at hk
    simp only [dictRev]
    rw [hk]
    simp
  have hperm : List.Perm (dictKeys (dictRev d)) ((d.map Prod.snd).dedup) :=
    (List.perm_ext_iff_of_nodup h1 (List.nodup_dedup _)).2 h2
  have hlen : ((d.map Prod.snd).dedup).length = (d.map Prod.snd).length := by
    have e1 : (dictKeys (dictRev d)).length = (dictRev d).length := by
      simp [dictKeys]
    rw [← hperm.length_eq, e1, h, List.length_map]
  have : (d.map Prod.snd).dedup = d.map Prod.snd :=
    (List.dedup_sublist _).eq_of_length hlen
  rw [← this]
  exact List.nodup_dedup _

theorem key_eq_of_values_nodup {α β : Type} {d : List (α × β)}
    (h : (d.map Prod.snd).Nodup) {k1 k2 : α} {v : β}
    (h1 : (k1, v) ∈ d) (h2 : (k2, v) ∈ d) : k1 = k2 := by
  induction d with
  | nil => simp at h1
  | cons p rest ih =>
    simp only [List.map_cons, List.nodup_cons] at h
    rcases List.mem_cons.1 h1 with e1 | m1 <;> rcases List.mem_cons.1 h2 with e2 | m2
    · rw [← e2] at e1
      exact congrArg Prod.fst e1
    · exfalso
      apply h.1
      rw [← e1]
      exact List.mem_map.2 ⟨(k2, v), m2, rfl⟩
    · exfalso
      apply h.1
      rw [← e2]
      exact List.mem_map.2 ⟨(k1, v), m1, rfl⟩
    · exact ih h.2 m1 m2

theorem dictRev_get_of_mem {α β : Type} [DecidableEq β] {d : List (α × β)}
    {k : α} {v : β} (hmem : (k, v) ∈ d) :
    ∃ k', dictGet? (dictRev d) v = some k' ∧ (k', v) ∈ d := by
  have hv : v ∈ dictKeys (dictRev d) := by
    have hk := dictRev_fold_keys d [] v
    simp only [dictRev]
    rw [hk]
    exact Or.inr (List.mem_map.2 ⟨(k, v), hmem, rfl⟩)
  have hs : (dictGet? (dictRev d) v).isSome := dictGet?_isSome_iff_mem_keys.2 hv
  obtain ⟨k', hk'⟩ := Option.isSome_iff_exists.1 hs
  refine ⟨k', hk', ?_⟩
  have : (v, k') ∈ dictRev d := mem_of_dictGet?_eq_some hk'
  exact dictRev_mem this

theorem dictInsert_length_of_not_mem {α β : Type} [DecidableEq α]
    {d : List (α × β)} {k : α} (v : β) (h : k ∉ dictKeys d) :
    (dictInsert d k v).length = d.length + 1 := by
  induction d with
  | nil => rfl
  | cons p rest ih =>
    rw [dictKeys_cons, List.mem_cons] at h
    push_neg at h
    have hp : ¬p.1 = k := fun hh => h.1 hh.symm
    rw [dictInsert_cons_neg _ _ _ _ hp, List.length_cons, List.length_cons, ih h.2]

theorem foldl_dictInsert_keys {γ α β : Type} [DecidableEq α] (f : γ → α)
    (gv : γ → β) :
    ∀ (l : List γ) (acc : List (α × β)) (a : α),
      a ∈ dictKeys (l.foldl (fun acc x => dictInsert acc (f x) (gv x)) acc) ↔
      a ∈ dictKeys acc ∨ ∃ x ∈ l, a = f x := by
  intro l
  induction l with
  | nil =>
    intro acc a
    simp
  | cons x rest ih =>
    intro acc a
    simp only [List.foldl_cons, List.mem_cons]
    rw [ih, dictKeys_insert_mem]
    constructor
    · rintro ((h | h) | ⟨y, hy, hfy⟩)
      · exact Or.inr ⟨x, Or.inl rfl, h⟩
      · exact Or.inl h
      · exact Or.inr ⟨y, Or.inr hy, hfy⟩
    · rintro (h | ⟨y, hy | hy, hfy⟩)
      · exact Or.inl (Or.inr h)
      · exact Or.inl (Or.inl (hy ▸ hfy))
      · exact Or.inr ⟨y, hy, hfy⟩

theorem foldl_dictInsert_length {γ α β : Type} [DecidableEq α] (f : γ → α)
    (gv : γ → β) :
    ∀ (l : List γ) (acc : List (α × β)),
      (∀ x ∈ l, f x ∉ dictKeys acc) →
      (∀ x ∈ l, ∀ y ∈ l, f x = f y → x = y) → l.Nodup →
      (l.foldl (fun acc x => dictInsert acc (f x) (gv x)) acc).length =
        acc.length + l.length := by
  intro l
  induction l with
  | nil =>
    intro acc _ _ _
    rfl
  | cons x rest ih =>
    intro acc hkeys hinj hnd
    rw [List.nodup_cons] at hnd
    simp only [List.foldl_cons]
    have hlen1 : (dictInsert acc (f x) (gv x)).length = acc.length + 1 :=
      dictInsert_length_of_not_mem _ (hkeys x (List.mem_cons.2 (Or.inl rfl)))
    have hkeys' : ∀ y ∈ rest, f y ∉ dictKeys (dictInsert acc (f x) (gv x)) := by
      intro y hy hmem
      rcases dictKeys_insert_mem.1 hmem with h' | h'
      · exact hnd.1 (hinj x (List.mem_cons.2 (Or.inl rfl)) y
          (List.mem_cons.2 (Or.inr hy)) h'.symm ▸ hy)
      · exact hkeys y (List.mem_cons.2 (Or.inr hy)) h'
    have hinj' : ∀ a ∈ rest, ∀ b ∈ rest, f a = f b → a = b := fun a ha b hb =>
      hinj a (List.mem_cons.2 (Or.inr ha)) b (List.mem_cons.2 (Or.inr hb))
    rw [ih _ hkeys' hinj' hnd.2, hlen1, List.length_cons]
    omega

/-!
Lemmas about `lookupIdx` and the modelled SentencePiece lookups.
-/

theorem lookupIdx_nil (s : String) : lookupIdx [] s = none := rfl

theorem lookupIdx_cons (x : String) (rest : List String) (s : String) :
    lookupIdx (x :: rest) s =
      if x = s then some 0 else (lookupIdx rest s).map (· + 1) := rfl

theorem lookupIdx_eq_none {l : List String} {s : String} (h : s ∉ l) :
    lookupIdx l s = none := by
  induction l with
  | nil => rfl
  | cons x rest ih =>
    rw [List.mem_cons] at h
    push_neg at h
    rw [lookupIdx_cons, if_neg (fun hh => h.1 hh.symm), ih h.2]
    rfl

theorem lookupIdx_of_get {l : List String} (hnd : l.Nodup) {j : Nat}
    (hj : j < l.length) {s : String} (hs : l.get ⟨j, hj⟩ = s) :
    lookupIdx l s = some j := by
  induction l generalizing j with
  | nil => exact absurd hj (by simp)
  | cons x rest ih =>
    rw [List.nodup_cons] at hnd
    cases j with
    | zero =>
      have hx : x = s := hs
      rw [lookupIdx_cons, if_pos hx]
    | succ j =>
      have hj' : j < rest.length := Nat.lt_of_succ_lt_succ hj
      have hs' : rest.get ⟨j, hj'⟩ = s := hs
      have hx : ¬x = s := by
        intro hh
        apply hnd.1
        rw [hh, ← hs']
        exact List.get_mem rest j hj'
      rw [lookupIdx_cons, if_neg hx, ih hnd.2 hj' hs']
      rfl

theorem piece_to_id_of_not_mem {sp : SentencePieceProcessor} {s : String}
    (h : s ∉ sp.pieces) : sp.piece_to_id s = sp.unk_id := by
  unfold SentencePieceProcessor.piece_to_id
  rw [lookupIdx_eq_none h]

theorem piece_to_id_of_lookupIdx {sp : SentencePieceProcessor} {s : String}
    {j : Nat} (h : lookupIdx sp.pieces s = some j) :
    sp.piece_to_id s = (j : Int) := by
  unfold SentencePieceProcessor.piece_to_id
  rw [h]

theorem IdToPiece_natCast {sp : SentencePieceProcessor} {i : Nat}
    (h : i < sp.pieces.length) :
    sp.IdToPiece (i : Int) = sp.pieces.get ⟨i, h⟩ := by
  unfold SentencePieceProcessor.IdToPiece
  rw [dif_pos ⟨Int.natCast_nonneg i, by simpa using h⟩]
  simp

/-!
Lemmas about the special-token dict built in `__init__`.
-/

theorem mem_dictKeys_spdict {sp : SentencePieceProcessor} {b e u a : String} :
    a ∈ dictKeys (spdict sp b e u) ↔ a = b ∨ a = e ∨ a = u := by
  unfold spdict
  rw [dictKeys_insert_mem, dictKeys_insert_mem, dictKeys_insert_mem]
  simp only [dictKeys_nil, List.not_mem_nil, or_false]
  tauto

theorem spdict_keys_nodup (sp : SentencePieceProcessor) (b e u : String) :
    (dictKeys (spdict sp b e u)).Nodup := by
  unfold spdict
  apply dictKeys_nodup_insert
  apply dictKeys_nodup_insert
  apply dictKeys_nodup_insert
  simp [dictKeys_nil]

theorem spdict_get_unk (sp : SentencePieceProcessor) (b e u : String) :
    dictGet? (spdict sp b e u) u = some sp.unk_id :=
  dictGet?_insert_self _ _ _

theorem spdict_distinct (sp : SentencePieceProcessor) {b e u : String}
    (hbe : b ≠ e) (hbu : b ≠ u) (heu : e ≠ u) :
    spdict sp b e u = [(b, sp.bos_id), (e, sp.eos_id), (u, sp.unk_id)] := by
  unfold spdict
  rw [dictInsert_nil, dictInsert_cons_neg _ _ _ _ hbe, dictInsert_nil,
    dictInsert_cons_neg _ _ _ _ hbu, dictInsert_cons_neg _ _ _ _ heu,
    dictInsert_nil]

theorem init_fields {vf b e u : String} {sp : SentencePieceProcessor}
    {tok : LLaMaTokenizer} (h : LLaMaTokenizer.init vf sp b e u = some tok) :
    tok.sp_model = sp ∧ tok.bos_token = b ∧ tok.eos_token = e ∧
      tok.unk_token = u ∧ tok.special_token_to_id = spdict sp b e u ∧
      tok.special_id_to_token = dictRev (spdict sp b e u) ∧
      (dictRev (spdict sp b e u)).length = (spdict sp b e u).length ∧
      ∀ p ∈ spdict sp b e u, sp.piece_to_id p.1 = sp.unk_id ∧ 0 ≤ p.2 := by
  unfold LLaMaTokenizer.init at h
  split at h
  · rename_i hc
    have ht := Option.some.inj h
    subst ht
    exact ⟨rfl, rfl, rfl, rfl, rfl, rfl, hc.1, hc.2⟩
  · exact absurd h (by simp)

theorem piece_cond_of_key {sp : SentencePieceProcessor} {b e u a : String}
    (hall : ∀ p ∈ spdict sp b e u, sp.piece_to_id p.1 = sp.unk_id ∧ 0 ≤ p.2)
    (ha : a = b ∨ a = e ∨ a = u) : sp.piece_to_id a = sp.unk_id := by
  have hk : a ∈ dictKeys (spdict sp b e u) := mem_dictKeys_spdict.2 ha
  have hs := dictGet?_isSome_iff_mem_keys.2 hk
  obtain ⟨v, hv⟩ := Option.isSome_iff_exists.1 hs
  exact (hall _ (mem_of_dictGet?_eq_some hv)).1

/-!
Unfolding lemmas for the conversion methods.
-/

theorem convert_token_to_id_of_get {tok : LLaMaTokenizer} {s : String} {i : Int}
    (h : dictGet? tok.special_token_to_id s = some i) :
    tok.convert_token_to_id s = i := by
  unfold LLaMaTokenizer.convert_token_to_id
  rw [h]

theorem convert_token_to_id_of_none {tok : LLaMaTokenizer} {s : String}
    (h : dictGet? tok.special_token_to_id s = none) :
    tok.convert_token_to_id s = tok.sp_model.piece_to_id s := by
  unfold LLaMaTokenizer.convert_token_to_id
  rw [h]

theorem convert_id_to_token_of_get {tok : LLaMaTokenizer} {i : Int} {s : String}
    (h : dictGet? tok.special_id_to_token i = some s) :
    tok.convert_id_to_token i = s := by
  unfold LLaMaTokenizer.convert_id_to_token
  rw [h]

theorem convert_id_to_token_of_none {tok : LLaMaTokenizer} {i : Int}
    (h : dictGet? tok.special_id_to_token i = none) :
    tok.convert_id_to_token i = tok.sp_model.IdToPiece i := by
  unfold LLaMaTokenizer.convert_id_to_token
  rw [h]

/-!
Claim theorems.
-/

/-- C1: special-token injection in the tokenize step — for every tokenizer
state and every input string `text`, `_tokenize(text)` equals `[bos_token]`
followed by the underlying SentencePiece segmentation of `text`. -/
theorem tokenize_prepends_bos (tok : LLaMaTokenizer) (text : String) :
    tok.tokenize text = tok.bos_token :: tok.sp_model.encode text := rfl

/-- C2: at load time, construction succeeds only if every configured
special-token string (bos, eos, unk) resolves to the unknown id through the
raw SentencePiece vocabulary; equivalently, if any of them resolves to a
different id, the constructor's assertion fails and no tokenizer is
produced. -/
theorem init_requires_special_maps_to_unk (vf b e u : String)
    (sp : SentencePieceProcessor) (tok : LLaMaTokenizer)
    (h : LLaMaTokenizer.init vf sp b e u = some tok) :
    sp.piece_to_id b = sp.unk_id ∧ sp.piece_to_id e = sp.unk_id ∧
      sp.piece_to_id u = sp.unk_id := by
  obtain ⟨-, -, -, -, -, -, -, hall⟩ := init_fields h
  exact ⟨piece_cond_of_key hall (Or.inl rfl),
    piece_cond_of_key hall (Or.inr (Or.inl rfl)),
    piece_cond_of_key hall (Or.inr (Or.inr rfl))⟩

/-- Witness for C2 at a concrete successful construction. -/
theorem init_requires_special_maps_to_unk_witness :
    spC.piece_to_id "<bos>" = spC.unk_id ∧ spC.piece_to_id "<eos>" = spC.unk_id ∧
      spC.piece_to_id "<unk>" = spC.unk_id :=
  init_requires_special_maps_to_unk "tokenizer.model" "<bos>" "<eos>" "<unk>"
    spC tokC rfl

/-- C3: registry lookups take precedence over vocabulary lookups in both
directions — a string stored in the forward registry converts to its registry
id, and an id stored in the reverse registry converts to its registry
string. -/
theorem registry_precedence (tok : LLaMaTokenizer) (s s' : String) (i i' : Int)
    (h1 : dictGet? tok.special_token_to_id s = some i)
    (h2 : dictGet? tok.special_id_to_token i' = some s') :
    tok.convert_token_to_id s = i ∧ tok.convert_id_to_token i' = s' :=
  ⟨convert_token_to_id_of_get h1, convert_id_to_token_of_get h2⟩

/-- Witness for C3 on the concrete tokenizer `tokC`. -/
theorem registry_precedence_witness :
    tokC.convert_token_to_id "<bos>" = 1 ∧ tokC.convert_id_to_token 2 = "<eos>" :=
  registry_precedence tokC "<bos>" "<eos>" 1 2 rfl rfl

/-- C4: unknown queries do not raise — a string that is neither a configured
special token nor a trained vocabulary piece converts to the unknown-token
id (the vocabulary lookup's not-found result translated to unk). -/
theorem unknown_token_maps_to_unk (tok : LLaMaTokenizer) (s : String)
    (h1 : s ∉ dictKeys tok.special_token_to_id)
    (h2 : s ∉ tok.sp_model.pieces) :
    tok.convert_token_to_id s = tok.sp_model.unk_id := by
  have hnone : dictGet? tok.special_token_to_id s = none := by
    cases hcase : dictGet? tok.special_token_to_id s with
    | none => rfl
    | some v =>
      exact absurd (dictGet?_isSome_iff_mem_keys.1 (by rw [hcase]; rfl)) h1
  rw [convert_token_to_id_of_none hnone]
  exact piece_to_id_of_not_mem h2

/-- Witness for C4 on the concrete tokenizer `tokC` with an out-of-vocabulary
query. -/
theorem unknown_token_maps_to_unk_witness :
    tokC.convert_token_to_id "zzz" = tokC.sp_model.unk_id :=
  unknown_token_maps_to_unk tokC "zzz" (by decide) (by decide)

/-- C5: segmenting the empty string is not an error — when the underlying
segmentation of `""` is empty, `_tokenize("")` is exactly the injected
begin-sequence token. -/
theorem tokenize_empty (tok : LLaMaTokenizer)
    (h : tok.sp_model.encode "" = []) : tok.tokenize "" = [tok.bos_token] := by
  unfold LLaMaTokenizer.tokenize
  rw [h]

/-- Witness for C5 on the concrete tokenizer `tokC`. -/
theorem tokenize_empty_witness : tokC.tokenize "" = [tokC.bos_token] :=
  tokenize_empty tokC rfl

/-- C7: segmentation is deterministic — for a fixed tokenizer state, two runs
of the embedded `_tokenize` on the identical text produce identical token
lists. -/
theorem tokenize_deterministic (tok : LLaMaTokenizer) (text : String) :
    tok.tokenize text = tok.tokenize text := rfl

/-- C8: the operations `_tokenize`, `_convert_token_to_id`,
`_convert_id_to_token`, `get_vocab` and `vocab_size` are read-only — each
state-passing embedding returns the tokenizer state unchanged, so in
particular `special_token_to_id`, `special_id_to_token`, `vocab_file` and
`sp_model` are the same before and after every call. -/
theorem operations_read_only (tok : LLaMaTokenizer) (text token : String)
    (index : Int) :
    (tok.tokenize_st text).2 = tok ∧
      (tok.convert_token_to_id_st token).2 = tok ∧
      (tok.convert_id_to_token_st index).2 = tok ∧
      tok.get_vocab_st.2 = tok ∧
      tok.vocab_size_st.2 = tok :=
  ⟨rfl, rfl, rfl, rfl, rfl⟩

/-- C6: id uniqueness and density at the public interface — for a tokenizer
whose construction succeeded over a duplicate-free vocabulary, the conversion
used by `get_vocab` assigns a distinct token string to every id in
`[0, vocab_size)` (so `get_vocab` has exactly `vocab_size` entries), and
`vocab_size` equals the underlying piece count. -/
theorem get_vocab_ids_distinct (vf b e u : String) (sp : SentencePieceProcessor)
    (tok : LLaMaTokenizer)
    (hinit : LLaMaTokenizer.init vf sp b e u = some tok)
    (hnd : sp.pieces.Nodup) :
    (∀ i j : Nat, i < tok.vocab_size → j < tok.vocab_size →
        tok.convert_id_to_token (i : Int) = tok.convert_id_to_token (j : Int) →
        i = j) ∧
      tok.get_vocab.length = tok.vocab_size ∧
      tok.vocab_size = sp.pieces.length := by
  obtain ⟨hsp, -, -, -, hfwd, hrev, -, hall⟩ := init_fields hinit
  have hsize : tok.vocab_size = sp.pieces.length := by
    unfold LLaMaTokenizer.vocab_size SentencePieceProcessor.get_piece_size
    rw [hsp]
  have hu_mem : (u, sp.unk_id) ∈ spdict sp b e u :=
    mem_of_dictGet?_eq_some (spdict_get_unk sp b e u)
  have hu_key : (dictGet? tok.special_id_to_token sp.unk_id).isSome := by
    obtain ⟨k', hk', -⟩ := dictRev_get_of_mem hu_mem
    rw [hrev, hk']
    rfl
  have hmix : ∀ (n : Nat) (hn : n < sp.pieces.length) (s : String),
      dictGet? tok.special_id_to_token (n : Int) = none →
      (∃ x, (s, x) ∈ spdict sp b e u) →
      sp.pieces.get ⟨n, hn⟩ = s → False := by
    intro n hn s hnone hx hget
    obtain ⟨x, hx⟩ := hx
    have hcond := (hall _ hx).1
    have hidx : lookupIdx sp.pieces s = some n := lookupIdx_of_get hnd hn hget
    have hpid : sp.piece_to_id s = (n : Int) := piece_to_id_of_lookupIdx hidx
    have hn_unk : (n : Int) = sp.unk_id := by rw [← hpid, hcond]
    rw [hn_unk] at hnone
    rw [hnone] at hu_key
    simp at hu_key
  have hinj : ∀ i j : Nat, i < tok.vocab_size → j < tok.vocab_size →
      tok.convert_id_to_token (i : Int) = tok.convert_id_to_token (j : Int) →
      i = j := by
    intro i j hi hj heq
    rw [hsize] at hi hj
    cases hci : dictGet? tok.special_id_to_token (i : Int) with
    | some si =>
      have hmi : ((i : Int), si) ∈ dictRev (spdict sp b e u) := by
        rw [← hrev]
        exact mem_of_dictGet?_eq_some hci
      cases hcj : dictGet? tok.special_id_to_token (j : Int) with
      | some sj =>
        rw [convert_id_to_token_of_get hci, convert_id_to_token_of_get hcj] at heq
        subst heq
        have hmj : ((j : Int), si) ∈ dictRev (spdict sp b e u) := by
          rw [← hrev]
          exact mem_of_dictGet?_eq_some hcj
        have g1 := dictGet?_eq_some_of_mem (spdict_keys_nodup sp b e u)
          (dictRev_mem hmi)
        have g2 := dictGet?_eq_some_of_mem (spdict_keys_nodup sp b e u)
          (dictRev_mem hmj)
        rw [g1] at g2
        have hij : (i : Int) = (j : Int) := Option.some.inj g2
        exact_mod_cast hij
      | none =>
        rw [convert_id_to_token_of_get hci, convert_id_to_token_of_none hcj,
          hsp, IdToPiece_natCast hj] at heq
        exact ((hmix j hj si hcj ⟨(i : Int), dictRev_mem hmi⟩) heq.symm).elim
    | none =>
      cases hcj : dictGet? tok.special_id_to_token (j : Int) with
      | some sj =>
        have hmj : ((j : Int), sj) ∈ dictRev (spdict sp b e u) := by
          rw [← hrev]
          exact mem_of_dictGet?_eq_some hcj
        rw [convert_id_to_token_of_none hci, convert_id_to_token_of_get hcj,
          hsp, IdToPiece_natCast hi] at heq
        exact ((hmix i hi sj hci ⟨(j : Int), dictRev_mem hmj⟩) heq).elim
      | none =>
        rw [convert_id_to_token_of_none hci, convert_id_to_token_of_none hcj,
          hsp, IdToPiece_natCast hi, IdToPiece_natCast hj] at heq
        have hfin := (List.Nodup.get_inj_iff hnd).1 heq
        exact congrArg Fin.val hfin
  refine ⟨hinj, ?_, hsize⟩
  unfold LLaMaTokenizer.get_vocab
  have hL := foldl_dictInsert_length
    (fun n : Nat => tok.convert_id_to_token (Int.ofNat n))
    (fun n : Nat => Int.ofNat n) (List.range tok.vocab_size) []
    (by
      intro x hx
      simp [dictKeys_nil])
    (by
      intro x hx y hy hxy
      exact hinj x y (List.mem_range.1 hx) (List.mem_range.1 hy) hxy)
    (List.nodup_range _)
  simpa using hL

/-- Witness for C6 on the concrete tokenizer `tokC`. -/
theorem get_vocab_ids_distinct_witness : tokC.vocab_size = spC.pieces.length :=
  (get_vocab_ids_distinct "tokenizer.model" "<bos>" "<eos>" "<unk>" spC tokC
    rfl (by decide)).2.2

/-- C9 counterexample: with `bos_token` and `eos_token` configured to the same
string, the forward dict collapses to two entries, the length assertion
compares 2 with 2, and construction succeeds over `spBad` even though the
loaded model binds bos and unk to the same id 0 — refuting the claim that
coinciding special ids always make the constructor's assertions fail. -/
theorem init_duplicate_ids_counterexample :
    (LLaMaTokenizer.init "tokenizer.model" spBad "<s>" "<s>" "<unk>").isSome =
        true ∧
      spBad.bos_id = spBad.unk_id :=
  ⟨rfl, rfl⟩

/-- C9 amended: provided the three configured special-token strings are
pairwise distinct, construction succeeds only if the loaded model binds bos,
eos and unk to pairwise-distinct, non-negative ids. -/
theorem init_distinct_ids_of_distinct_strings (vf b e u : String)
    (sp : SentencePieceProcessor) (tok : LLaMaTokenizer)
    (hbe : b ≠ e) (hbu : b ≠ u) (heu : e ≠ u)
    (h : LLaMaTokenizer.init vf sp b e u = some tok) :
    sp.bos_id ≠ sp.eos_id ∧ sp.bos_id ≠ sp.unk_id ∧ sp.eos_id ≠ sp.unk_id ∧
      0 ≤ sp.bos_id ∧ 0 ≤ sp.eos_id ∧ 0 ≤ sp.unk_id := by
  obtain ⟨-, -, -, -, -, -, hlen, hall⟩ := init_fields h
  have hd := spdict_distinct sp hbe hbu heu
  have hvals := dictRev_values_nodup hlen
  rw [hd] at hvals hall
  simp only [List.map_cons, List.map_nil] at hvals
  rw [List.nodup_cons, List.nodup_cons] at hvals
  have hbe' : sp.bos_id ≠ sp.eos_id := fun hh =>
    hvals.1 (hh ▸ List.mem_cons.2 (Or.inl rfl))
  have hbu' : sp.bos_id ≠ sp.unk_id := fun hh =>
    hvals.1 (hh ▸ List.mem_cons.2 (Or.inr (List.mem_singleton.2 rfl)))
  have heu' : sp.eos_id ≠ sp.unk_id := fun hh =>
    hvals.2.1 (hh ▸ List.mem_singleton.2 rfl)
  refine ⟨hbe', hbu', heu', ?_, ?_, ?_⟩
  · exact (hall (b, sp.bos_id) (by simp)).2
  · exact (hall (e, sp.eos_id) (by simp)).2
  · exact (hall (u, sp.unk_id) (by simp)).2

/-- Witness for the amended C9 at a concrete successful construction with
distinct special strings. -/
theorem init_distinct_ids_of_distinct_strings_witness :
    spC.bos_id ≠ spC.eos_id ∧ spC.bos_id ≠ spC.unk_id ∧
      spC.eos_id ≠ spC.unk_id ∧
      0 ≤ spC.bos_id ∧ 0 ≤ spC.eos_id ∧ 0 ≤ spC.unk_id :=
  init_distinct_ids_of_distinct_strings "tokenizer.model" "<bos>" "<eos>"
    "<unk>" spC tokC (by decide) (by decide) (by decide) rfl

/-- C10: special tokens round-trip through the conversion maps — for a
tokenizer whose construction succeeded, a string in the forward registry
converts to an id and back to itself, and an id in the reverse registry
converts to a string and back to itself. -/
theorem special_tokens_roundtrip (vf b e u : String)
    (sp : SentencePieceProcessor) (tok : LLaMaTokenizer) (s s' : String)
    (i i' : Int) (hinit : LLaMaTokenizer.init vf sp b e u = some tok)
    (h1 : dictGet? tok.special_token_to_id s = some i)
    (h2 : dictGet? tok.special_id_to_token i' = some s') :
    tok.convert_id_to_token (tok.convert_token_to_id s) = s ∧
      tok.convert_token_to_id (tok.convert_id_to_token i') = i' := by
  obtain ⟨-, -, -, -, hfwd, hrev, hlen, -⟩ := init_fields hinit
  constructor
  · rw [convert_token_to_id_of_get h1]
    have hvals : ((spdict sp b e u).map Prod.snd).Nodup := dictRev_values_nodup hlen
    have hmem : (s, i) ∈ spdict sp b e u := by
      rw [← hfwd]
      exact mem_of_dictGet?_eq_some h1
    obtain ⟨k', hk', hk'mem⟩ := dictRev_get_of_mem hmem
    have hks : k' = s := key_eq_of_values_nodup hvals hk'mem hmem
    subst hks
    exact convert_id_to_token_of_get (by rw [hrev]; exact hk')
  · rw [convert_id_to_token_of_get h2]
    have hmem : (i', s') ∈ dictRev (spdict sp b e u) := by
      rw [← hrev]
      exact mem_of_dictGet?_eq_some h2
    have hmem2 : (s', i') ∈ spdict sp b e u := dictRev_mem hmem
    have hget : dictGet? (spdict sp b e u) s' = some i' :=
      dictGet?_eq_some_of_mem (spdict_keys_nodup sp b e u) hmem2
    exact convert_token_to_id_of_get (by rw [hfwd]; exact hget)

/-- Witness for C10 on the concrete tokenizer `tokC`. -/
theorem special_tokens_roundtrip_witness :
    tokC.convert_id_to_token (tokC.convert_token_to_id "<unk>") = "<unk>" ∧
      tokC.convert_token_to_id (tokC.convert_id_to_token 1) = 1 :=
  special_tokens_roundtrip "tokenizer.model" "<bos>" "<eos>" "<unk>" spC tokC
    "<unk>" "<bos>" 0 1 rfl rfl rfl

end Spec2Proof
